import Mathlib

/-!
Verification of `mlinsights` piecewise regression models.

This file embeds, in Lean 4, the Python code of
`mlinsights/mlmodel/piecewise_linear_regression.py` and
`mlinsights/mlmodel/piecewise_tree_regression.py`, together with a model
(reconstructed from the specification) of the incremental linear-regression
split criterion whose compiled implementation is not part of the source tree.
Real numbers are modelled by `ℚ`; numpy arrays by index functions `Nat → _`
with an explicit length; Python exceptions by `Except PyError`.
-/

set_option maxHeartbeats 1000000

/-- One sample's feature vector (a row of the design matrix). -/
abbrev Row := List ℚ

/-- A design matrix, viewed as a total row accessor (numpy 2-d array). -/
abbrev Mat := Nat → Row

/-- The Python exceptions raised by the embedded code. -/
inductive PyError
  | typeError
  | notImplementedError
  | attributeError
  | notFittedError
deriving DecidableEq

/-- A bucket key of the trained mapping: a tree leaf id (tree-like binner) or
a tuple of integers obtained from a transform output (transform-like binner). -/
inductive BKey
  | leaf (j : Nat)
  | code (c : List Int)
deriving DecidableEq

/-- A fitted binner, by capability.  `tree` models an estimator carrying a
`tree_` attribute: children arrays (used to enumerate leaves) and the
`decision_path` membership predicate on feature rows.  `transf` models an
estimator with a `transform` method producing one integer tuple per row.
`other` models a binner with neither capability. -/
inductive Binner
  | tree (childrenLeft childrenRight : List Int) (decPath : Row → Nat → Bool)
  | transf (codes : Row → List Int)
  | other

/-- `leaves = [i for i in range(len(tree.children_left))
  if tree.children_left[i] <= i and tree.children_right[i] <= i]`. -/
def treeLeaves (childrenLeft childrenRight : List Int) : List Nat :=
  (List.range childrenLeft.length).filter fun i =>
    childrenLeft.getD i 0 ≤ (i : Int) ∧ childrenRight.getD i 0 ≤ (i : Int)

/-- `numpy.any` over the first `n` row indices. -/
def anyRow (n : Nat) (p : Nat → Bool) : Bool :=
  (List.range n).any p

/-- Python's `mapping.get(d, -1)`: dictionary lookup with default `-1`,
the dictionary being modelled as an association list with distinct keys. -/
def mlookup (mapping : List (BKey × Nat)) (d : BKey) : Int :=
  match mapping.find? (fun p => p.1 = d) with
  | some p => (p.2 : Int)
  | none => -1

/-- Intermediate state of `_mapping_train`: the `association` array (as a
total function, `-1` outside the first `n` rows), the `mapping` dictionary
and the `ntree` counter. -/
structure MTState where
  association : Nat → Int
  mapping : List (BKey × Nat)
  ntree : Nat

/-- Body of the `for j in leaves` loop of `_mapping_train` (tree branch):
`ind = dec_path[:, j] == 1; if not any(ind): continue;
mapping[j] = ntree; association[ind] = ntree; ntree += 1`. -/
def mtTreeStep (X : Mat) (n : Nat) (decPath : Row → Nat → Bool)
    (st : MTState) (j : Nat) : MTState :=
  if anyRow n (fun r => decPath (X r) j) then
    { association := fun r =>
        if r < n ∧ decPath (X r) j = true then (st.ntree : Int) else st.association r,
      mapping := st.mapping ++ [(BKey.leaf j, st.ntree)],
      ntree := st.ntree + 1 }
  else st

/-- `_mapping_train`, tree branch: association starts at `-1` everywhere,
then the loop above runs over the leaves of the binner's tree. -/
def mappingTrainTree (X : Mat) (n : Nat)
    (childrenLeft childrenRight : List Int) (decPath : Row → Nat → Bool) : MTState :=
  (treeLeaves childrenLeft childrenRight).foldl (mtTreeStep X n decPath)
    ⟨fun _ => -1, [], 0⟩

/-- The integer tuples produced by the binner's transform on the first `n`
rows of `X` (`d = tuple(asarray(x.todense()).ravel().astype(int32))`). -/
def transfCodesList (X : Mat) (n : Nat) (codes : Row → List Int) : List (List Int) :=
  (List.range n).map fun r => codes (X r)

/-- `leaves = list(sorted(unique))`: the distinct transform codes, sorted. -/
def transfLeaves (X : Mat) (n : Nat) (codes : Row → List Int) : List (List Int) :=
  List.insertionSort (· ≤ ·) (transfCodesList X n codes).dedup

/-- `for i, le in enumerate(leaves): mapping[le] = i`, with the running index
made explicit. -/
def enumCodes : Nat → List (List Int) → List (BKey × Nat)
  | _, [] => []
  | i, c :: rest => (BKey.code c, i) :: enumCodes (i + 1) rest

/-- `_mapping_train`, transform branch: build the sorted distinct codes, the
code-to-index mapping, and `association[i] = mapping.get(d, -1)` per row. -/
def mappingTrainTransf (X : Mat) (n : Nat) (codes : Row → List Int) : MTState :=
  let leaves := transfLeaves X n codes
  let mapping := enumCodes 0 leaves
  { association := fun r =>
      if r < n then mlookup mapping (BKey.code (codes (X r))) else -1,
    mapping := mapping,
    ntree := leaves.length }

/-- The `leaves` value returned by `_mapping_train` (leaf ids for a tree
binner, transform codes for a transform binner), as bucket keys. -/
def binnerLeaves (b : Binner) (X : Mat) (n : Nat) : List BKey :=
  match b with
  | .tree cl cr _ => (treeLeaves cl cr).map BKey.leaf
  | .transf codes => (transfLeaves X n codes).map BKey.code
  | .other => []

/-- `PiecewiseLinearRegression._mapping_train(X, binner)`: dispatch on the
binner's capability; raise `NotImplementedError` when it has neither a
`tree_` attribute nor a `transform` method. -/
def mappingTrain (b : Binner) (X : Mat) (n : Nat) :
    Except PyError ((Nat → Int) × List (BKey × Nat) × List BKey) :=
  match b with
  | .tree cl cr decPath =>
      let st := mappingTrainTree X n cl cr decPath
      .ok (st.association, st.mapping, binnerLeaves b X n)
  | .transf codes =>
      let st := mappingTrainTransf X n codes
      .ok (st.association, st.mapping, binnerLeaves b X n)
  | .other => .error .notImplementedError

/-- `PiecewiseLinearRegression.transform_bins(X)`: recompute the association
of each row of a (new) matrix `X` from the fitted binner, sending rows whose
bucket key is absent from the trained `mapping_` to `-1`. -/
def transformBins (b : Binner) (mapping : List (BKey × Nat)) (leavesAttr : List BKey)
    (X : Mat) (n : Nat) : Except PyError (Nat → Int) :=
  match b with
  | .tree _ _ decPath =>
      .ok (leavesAttr.foldl
        (fun assoc k =>
          match k with
          | .leaf j =>
            if anyRow n (fun r => decPath (X r) j) then
              fun r => if r < n ∧ decPath (X r) j = true then
                  mlookup mapping (.leaf j) else assoc r
            else assoc
          | .code _ => assoc)
        (fun _ => -1))
  | .transf codes =>
      .ok (fun r => if r < n then mlookup mapping (.code (codes (X r))) else -1)
  | .other => .error .notImplementedError

/-- `_fit_piecewise_estimator(i, model, X, y, sample_weight, association)`:
returns `None` when no training row has `association == i`, otherwise the
estimator fitted on the selected rows.  The fitted estimator is abstracted
by the list of training-row indices it was fitted on. -/
def fitPiecewiseEstimator (i : Nat) (n : Nat) (association : Nat → Int) :
    Option (List Nat) :=
  let ind := (List.range n).filter fun r => association r = (i : Int)
  if ind.isEmpty then none else some ind

/-- The `estimators_` attribute through the life of `fit`: absent before
`fit`, the `{}` dictionary just before `_mapping_train`, then the list
returned by the parallel per-bucket fit. -/
inductive EstAttr
  | unset
  | emptyInit
  | fitted (ests : List (Option (List Nat)))
deriving DecidableEq

/-- The attributes `fit` writes on a `PiecewiseLinearRegression` instance. -/
structure PLRState where
  binner_ : Option Binner
  estimators_ : EstAttr
  mapping_ : Option (List (BKey × Nat))
  leaves_ : Option (List BKey)
  dim_ : Option Nat
  mean_ : Option ℚ

/-- A fresh, never-fitted instance. -/
def initState : PLRState :=
  ⟨none, .unset, none, none, none, none⟩

/-- The argument `X` of `fit`/`predict`: a pandas DataFrame, a Python list,
or a numpy array, each carrying its rows and row count. -/
inductive XInput
  | dataframe (vals : Mat) (n : Nat)
  | pylist (vals : Mat) (n : Nat)
  | ndarray (vals : Mat) (n : Nat)

/-- `X = X.values if isinstance(X, pandas.DataFrame) else X`. -/
def xToValues : XInput → XInput
  | .dataframe v n => .ndarray v n
  | x => x

/-- `isinstance(X, list)`. -/
def xIsPyList : XInput → Bool
  | .pylist _ _ => true
  | _ => false

/-- Row accessor of an `XInput`. -/
def xVals : XInput → Mat
  | .dataframe v _ => v
  | .pylist v _ => v
  | .ndarray v _ => v

/-- `X.shape[0]` of an `XInput`. -/
def xRows : XInput → Nat
  | .dataframe _ n => n
  | .pylist _ n => n
  | .ndarray _ n => n

/-- The shape of the target `y`: one- or two-dimensional. -/
inductive YShape
  | one (n : Nat)
  | two (n m : Nat)
deriving DecidableEq

/-- `self.dim_ = 1 if len(y.shape) == 1 else y.shape[1]`. -/
def dimOfY : YShape → Nat
  | .one _ => 1
  | .two _ m => m

/-- `numpy.average(y, weights=sample_weight)` over the first `n` targets. -/
def npAverage (y : Nat → ℚ) (n : Nat) (w : Option (Nat → ℚ)) : ℚ :=
  match w with
  | none => ((List.range n).map y).sum / (n : ℚ)
  | some ws =>
      ((List.range n).map fun r => ws r * y r).sum / ((List.range n).map ws).sum

/-- `PiecewiseLinearRegression.fit(X, y, sample_weight)`: convert a DataFrame
to its values, reject a Python list, fit the (cloned) binner, set
`estimators_ = {}`, run `_mapping_train`, fit one cloned estimator per
mapping entry in parallel, then set `dim_` and `mean_`.  Returns the updated
instance state together with the normal/exceptional outcome. -/
def fitPLR (selfBinner : Binner) (X : XInput) (y : Nat → ℚ) (yshape : YShape)
    (sampleWeight : Option (Nat → ℚ)) (st : PLRState) :
    PLRState × Except PyError Unit :=
  let Xc := xToValues X
  if xIsPyList Xc then (st, .error .typeError)
  else
    let Xv := xVals Xc
    let n := xRows Xc
    let st1 := { st with binner_ := some selfBinner }
    let st2 := { st1 with estimators_ := .emptyInit }
    match mappingTrain selfBinner Xv n with
    | .error e => (st2, .error e)
    | .ok (association, mapping, leaves) =>
        let st3 := { st2 with mapping_ := some mapping, leaves_ := some leaves }
        let ests := (List.range mapping.length).map
          fun i => fitPiecewiseEstimator i n association
        let st4 := { st3 with estimators_ := .fitted ests }
        ({ st4 with dim_ := some (dimOfY yshape),
                    mean_ := some (npAverage y n sampleWeight) }, .ok ())

/-- `self.n_estimators_`: `len(self.estimators_)` after `check_is_fitted`. -/
def nEstimators (st : PLRState) : Option Nat :=
  match st.estimators_ with
  | .fitted ests => some ests.length
  | _ => none

/-- `_predict_piecewise_estimator(i, est, X, association)`: compute the mask
of rows with `association == i`; if empty return `None`, otherwise call the
estimator's `predict` on the selected rows (an absent estimator then fails
with an `AttributeError`).  `estPred e x` abstracts the prediction, on the
feature row `x`, of the estimator fitted on training rows `e`. -/
def predictPiecewiseEstimator (i : Nat) (est : Option (List Nat))
    (estPred : List Nat → Row → ℚ) (Xv : Mat) (n : Nat) (association : Nat → Int) :
    Except PyError (Option ((Nat → Bool) × (Nat → ℚ))) :=
  let ind := fun r => decide (r < n) && decide (association r = (i : Int))
  if anyRow n (fun r => association r = (i : Int)) then
    match est with
    | none => .error .attributeError
    | some e => .ok (some (ind, fun r => estPred e (Xv r)))
  else .ok none

/-- The parallel dispatch of `_predict_piecewise_estimator` over the listed
estimator indices, results gathered in order (exceptions propagate). -/
def collectPreds (ests : List (Option (List Nat))) (estPred : List Nat → Row → ℚ)
    (Xv : Mat) (n : Nat) (association : Nat → Int) :
    List Nat → Except PyError (List (Option ((Nat → Bool) × (Nat → ℚ))))
  | [] => .ok []
  | i :: rest =>
      match predictPiecewiseEstimator i (ests.getD i none) estPred Xv n association with
      | .error e => .error e
      | .ok item =>
          match collectPreds ests estPred Xv n association rest with
          | .error e => .error e
          | .ok items => .ok (item :: items)

/-- `for ind, p in indpred: if ind is None: continue; pred[ind] = p`. -/
def gatherStep (pred : Nat → ℚ) (item : Option ((Nat → Bool) × (Nat → ℚ))) :
    Nat → ℚ :=
  match item with
  | none => pred
  | some (ind, p) => fun r => if ind r then p r else pred r

/-- `PiecewiseLinearRegression.predict(X)`: check the instance is fitted,
convert a DataFrame, recompute associations with `transform_bins`, dispatch
the per-estimator predictions, initialize every output position to `mean_`
and overwrite the positions selected by each gathered mask. -/
def predictPLR (st : PLRState) (estPred : List Nat → Row → ℚ) (X : XInput) :
    Except PyError (Nat → ℚ) :=
  match st.estimators_, st.binner_, st.mapping_, st.leaves_, st.mean_, st.dim_ with
  | .fitted ests, some b, some mapping, some leaves, some mean, some _ =>
      let Xc := xToValues X
      let Xv := xVals Xc
      let n := xRows Xc
      match transformBins b mapping leaves Xv n with
      | .error e => .error e
      | .ok association =>
          match collectPreds ests estPred Xv n association (List.range ests.length) with
          | .error e => .error e
          | .ok items => .ok (items.foldl gatherStep fun _ => mean)
  | _, _, _, _, _, _ => .error .notFittedError

/-- One bucket's contribution to the gathered prediction: rows with
`association == i` are overwritten with the bucket estimator's prediction
(nothing happens for an absent estimator, which can only lack matching
rows). -/
def gatherOrderStep (ests : List (Option (List Nat)))
    (estPred : List Nat → Row → ℚ) (Xv : Mat) (n : Nat) (association : Nat → Int)
    (pred : Nat → ℚ) (i : Nat) : Nat → ℚ :=
  match ests.getD i none with
  | none => pred
  | some e => fun r =>
      if r < n ∧ association r = (i : Int) then estPred e (Xv r) else pred r

/-- The `pred[ind] = p` gathering loop run in an arbitrary order over the
estimator indices (the per-bucket computations are independent, so any
dispatch/gather order is meaningful). -/
def predictGatherOrder (order : List Nat) (ests : List (Option (List Nat)))
    (estPred : List Nat → Row → ℚ) (Xv : Mat) (n : Nat) (association : Nat → Int)
    (mean : ℚ) : Nat → ℚ :=
  order.foldl (gatherOrderStep ests estPred Xv n association) (fun _ => mean)

/-- The result of `_predict_piecewise_estimator` for bucket `i` when its
estimator, if needed, is present. -/
def predictItem (ests : List (Option (List Nat))) (estPred : List Nat → Row → ℚ)
    (Xv : Mat) (n : Nat) (association : Nat → Int) (i : Nat) :
    Option ((Nat → Bool) × (Nat → ℚ)) :=
  if anyRow n (fun r => association r = (i : Int)) then
    match ests.getD i none with
    | none => none
    | some e => some (fun r => decide (r < n) && decide (association r = (i : Int)),
                      fun r => estPred e (Xv r))
  else none

/-- The shape of the array allocated by `predict`:
`numpy.zeros((X.shape[0], self.dim_) if self.dim_ > 1 else (X.shape[0],))`. -/
inductive NpShape
  | one (n : Nat)
  | two (n m : Nat)
deriving DecidableEq

/-- The shape of `predict`'s output array, from the row count and `dim_`. -/
def predShapeOf (n dim : Nat) : NpShape :=
  if 1 < dim then .two n dim else .one n

/-- The property, of a tree binner, that decision paths of distinct listed
leaves never share a feature row (true of the leaf columns of a real
decision tree's decision-path matrix). -/
def binnerValid (b : Binner) : Prop :=
  match b with
  | .tree cl cr decPath =>
      (treeLeaves cl cr).Pairwise fun j j' =>
        ∀ x : Row, ¬(decPath x j = true ∧ decPath x j' = true)
  | .transf _ => True
  | .other => False

/-- A leaf of a tree binner containing at least one of the first `n` rows. -/
def leafNonempty (X : Mat) (n : Nat) (decPath : Row → Nat → Bool) (j : Nat) : Bool :=
  anyRow n fun r => decPath (X r) j

/-- The distinct non-empty bucket keys of a fitted binner on training data:
non-empty leaves for a tree binner, distinct observed codes (sorted) for a
transform binner. -/
def nonEmptyKeys (b : Binner) (X : Mat) (n : Nat) : List BKey :=
  match b with
  | .tree cl cr decPath =>
      ((treeLeaves cl cr).filter (leafNonempty X n decPath)).map BKey.leaf
  | .transf codes => (transfLeaves X n codes).map BKey.code
  | .other => []

/-- `DecisionTreeLinearRegressor`'s `criterion` value: the `'mselin'`
default, the `'simple'` string, the `SimpleRegressorCriterion` object it is
replaced by, or any other value. -/
inductive DTLRCriterion
  | mselin
  | simple
  | criterionObj
  | otherVal (s : String)
deriving DecidableEq

/-- Outcome of a `DecisionTreeLinearRegressor.fit` call under a fuel bound:
an uncaught `NotImplementedError`, a normal return, or fuel exhaustion
(standing for non-termination of the unbounded recursion). -/
inductive FitOutcome
  | notImplemented
  | returned
  | outOfFuel
deriving DecidableEq

/-- `DecisionTreeLinearRegressor.fit`: `'mselin'` raises
`NotImplementedError`; `'simple'` stores a `SimpleRegressorCriterion` object
into `self.criterion` and re-invokes `self.fit`; every other criterion value
re-invokes `self.fit` unchanged.  The recursion is given explicit fuel. -/
def dtlrFit : Nat → DTLRCriterion → FitOutcome
  | 0, _ => .outOfFuel
  | _ + 1, .mselin => .notImplemented
  | fuel + 1, .simple => dtlrFit fuel .criterionObj
  | fuel + 1, .criterionObj => dtlrFit fuel .criterionObj
  | fuel + 1, .otherVal s => dtlrFit fuel (.otherVal s)

/-- Modelled from the spec: the maintained statistics of the criterion
accumulator (`piecewise_tree_regression_criterion*`, whose compiled
implementation is not in the source tree) — total weight, weighted target
sum, weighted squared-target sum, weighted feature sums, weighted
feature-feature and feature-target cross-product sums. -/
inductive Moment
  | weight
  | sy
  | sy2
  | sx (j : Nat)
  | sxx (j k : Nat)
  | sxy (j : Nat)
deriving DecidableEq

/-- A full vector of sufficient statistics, one value per moment. -/
abbrev StatVec := Moment → ℚ

/-- Modelled from the spec: the weighted contribution of sample `r` to each
maintained statistic. -/
def momentContrib (X : Mat) (y w : Nat → ℚ) (m : Moment) (r : Nat) : ℚ :=
  w r * (match m with
    | .weight => 1
    | .sy => y r
    | .sy2 => y r * y r
    | .sx j => (X r).getD j 0
    | .sxx j k => (X r).getD j 0 * (X r).getD k 0
    | .sxy j => (X r).getD j 0 * y r)

/-- Modelled from the spec: add one sample's weighted contribution to every
statistic (a rank-1 incremental update). -/
def addSample (X : Mat) (y w : Nat → ℚ) (s : StatVec) (r : Nat) : StatVec :=
  fun m => s m + momentContrib X y w m r

/-- Modelled from the spec: remove one sample's weighted contribution from
every statistic. -/
def subSample (X : Mat) (y w : Nat → ℚ) (s : StatVec) (r : Nat) : StatVec :=
  fun m => s m - momentContrib X y w m r

/-- Modelled from the spec: the statistics accumulated over a list of sample
indices. -/
def statsOver (X : Mat) (y w : Nat → ℚ) (rows : List Nat) : StatVec :=
  rows.foldl (addSample X y w) fun _ => 0

/-- Modelled from the spec: the criterion accumulator's state — the sample
permutation, the active node range `[start, stop)`, the split position
`pos`, and the left/right/whole-node statistics. -/
structure Crit where
  permutation : List Nat
  start : Nat
  stop : Nat
  pos : Nat
  left : StatVec
  right : StatVec
  total : StatVec

/-- Modelled from the spec: `reset(start, end)` followed by `init_split()` —
fails on an invalid range (`start ≥ end` or `end` beyond the permutation),
otherwise recomputes whole-node statistics from scratch over the window,
sets `pos = start`, zeroes the left statistics and puts the whole node in
the right partition. -/
def resetInitSplit (X : Mat) (y w : Nat → ℚ) (perm : List Nat)
    (start stop : Nat) : Option Crit :=
  if start < stop ∧ stop ≤ perm.length then
    let total := statsOver X y w ((perm.drop start).take (stop - start))
    some ⟨perm, start, stop, start, fun _ => 0, total, total⟩
  else none

/-- Modelled from the spec: `advance(new_pos)` — fails when moving backward
or past the node's end; otherwise, for every permutation entry crossed, adds
its weighted contribution to the left statistics and subtracts it from the
right statistics. -/
def advanceCrit (X : Mat) (y w : Nat → ℚ) (c : Crit) (newPos : Nat) : Option Crit :=
  if c.pos ≤ newPos ∧ newPos ≤ c.stop then
    let crossed := (c.permutation.drop c.pos).take (newPos - c.pos)
    some { c with
      pos := newPos,
      left := crossed.foldl (addSample X y w) c.left,
      right := crossed.foldl (subSample X y w) c.right }
  else none

/-- The accumulator states reachable by one valid
`reset`/`init_split`/`advance*` sweep. -/
inductive SweepReach (X : Mat) (y w : Nat → ℚ) : Crit → Prop
  | init (perm : List Nat) (start stop : Nat) (c : Crit) :
      resetInitSplit X y w perm start stop = some c → SweepReach X y w c
  | advance (c c' : Crit) (newPos : Nat) :
      SweepReach X y w c → advanceCrit X y w c newPos = some c' → SweepReach X y w c'

/-- Modelled from the spec: the determinant of the 2×2 normal-equation
matrix for an intercept-plus-one-feature fit (`P = 1`),
`[[W, Sx], [Sx, Sxx]]`. -/
def normalDet (s : StatVec) : ℚ :=
  s .weight * s (.sxx 0 0) - s (.sx 0) * s (.sx 0)

/-- Modelled from the spec: the intercept-only fallback impurity — the
weighted variance of the target. -/
def varianceImpurity (s : StatVec) : ℚ :=
  (s .sy2 - s .sy * s .sy / s .weight) / s .weight

/-- Modelled from the spec: the impurity of the best-fit linear model,
solving the normal equations by Cramer's rule and returning the weighted
residual sum of squares divided by total weight. -/
def linearImpurity (s : StatVec) : ℚ :=
  let b := (s .weight * s (.sxy 0) - s (.sx 0) * s .sy) / normalDet s
  let a := (s .sy - b * s (.sx 0)) / s .weight
  (s .sy2 - a * s .sy - b * s (.sxy 0)) / s .weight

/-- Modelled from the spec: `node_impurity()` — guard against a singular
normal-equation matrix by falling back to the intercept-only (variance)
impurity, never raising. -/
def nodeImpurity (s : StatVec) : ℚ :=
  if normalDet s = 0 then varianceImpurity s else linearImpurity s

/-- Modelled from the spec: `children_impurity()` — the pair of impurities
of the two partitions at the current split point, computed like
`node_impurity()` with the same singular-matrix fallback. -/
def childrenImpurity (c : Crit) : ℚ × ℚ :=
  (nodeImpurity c.left, nodeImpurity c.right)

/-- Concrete single-feature design matrix used to evaluate the theorems. -/
def exX : Mat := fun r => [([(-2 : ℚ), -1, 1, 2]).getD r 0]

/-- Concrete targets for `exX`. -/
def exY : Nat → ℚ := fun r => [(-4 : ℚ), -2, 2, 4].getD r 0

/-- Concrete unit weights. -/
def exW : Nat → ℚ := fun _ => 1

/-- A concrete accumulator state after `reset(0, 3)` and `init_split()`. -/
def exCrit0 : Crit :=
  (resetInitSplit exX exY exW [0, 1, 2] 0 3).getD
    ⟨[], 0, 0, 0, (fun _ => 0), (fun _ => 0), fun _ => 0⟩

/-- The state `exCrit0` after `advance(2)`. -/
def exCrit1 : Crit := (advanceCrit exX exY exW exCrit0 2).getD exCrit0

/-- A concrete design matrix whose single feature is constant. -/
def exXConst : Mat := fun _ => [(1 : ℚ)]

/-- Children arrays of a concrete fitted 3-leaf binner tree
(root 0 with children 1 and 2, node 2 with children 3 and 4). -/
def exCL : List Int := [1, -1, 3, -1, -1]

/-- Right-children array of the concrete binner tree. -/
def exCR : List Int := [2, -1, 4, -1, -1]

/-- Decision-path membership of the concrete binner tree: leaf 1 holds rows
with negative feature, leaf 3 rows in `[0, 10)`, leaf 4 rows `≥ 10`. -/
def exDecPath : Row → Nat → Bool := fun x j =>
  if j = 1 then decide (x.getD 0 0 < 0)
  else if j = 3 then decide (0 ≤ x.getD 0 0) && decide (x.getD 0 0 < 10)
  else if j = 4 then decide (10 ≤ x.getD 0 0)
  else false

/-- The concrete tree binner. -/
def exBinner : Binner := .tree exCL exCR exDecPath

/-- A concrete prediction input whose single row maps to leaf 4, which is
empty on the training data `exX`. -/
def exXP : Mat := fun _ => [(12 : ℚ)]

/-- A trivial per-estimator prediction function for evaluation. -/
def exEstPred : List Nat → Row → ℚ := fun e x => (e.length : ℚ) + x.getD 0 0

/-- The `_mapping_train` state computed on the concrete binner and data. -/
def exMT : MTState := mappingTrainTree exX 4 exCL exCR exDecPath

/-- A concrete estimator list with two present estimators. -/
def exEsts : List (Option (List Nat)) := [some [0, 1], some [2, 3]]

/-- A concrete association sending row 0 to bucket 0 and the rest to 1. -/
def exAssoc : Nat → Int := fun r => if r = 0 then 0 else 1

/-- The association computed by `transform_bins` on the prediction input
`exXP` for the concrete fitted binner. -/
def exAssocP : Nat → Int :=
  match transformBins exBinner exMT.mapping (binnerLeaves exBinner exX 4) exXP 1 with
  | .ok a => a
  | .error _ => fun _ => -1

/-- Adding crossed samples to the left statistics while subtracting them from
the right statistics preserves their sum. -/
theorem foldl_add_sub_additive (X : Mat) (y w : Nat → ℚ) :
    ∀ (rows : List Nat) (L R T : StatVec),
      (∀ m, L m + R m = T m) →
      ∀ m, (rows.foldl (addSample X y w) L) m + (rows.foldl (subSample X y w) R) m = T m := by
  intro rows
  induction rows with
  | nil => intro L R T h m; exact h m
  | cons r rest ih =>
      intro L R T h m
      simp only [List.foldl_cons]
      refine ih _ _ _ (fun m' => ?_) m
      simp only [addSample, subSample]
      have := h m'
      ring_nf
      linarith

/-- C5: at every point of a valid `reset`/`init_split`/`advance` sweep, and
for every maintained statistic, the left-partition value plus the
right-partition value equals the whole-node value (exactly, in `ℚ`). -/
theorem criterion_additivity (X : Mat) (y w : Nat → ℚ) (c : Crit)
    (h : SweepReach X y w c) : ∀ m : Moment, c.left m + c.right m = c.total m := by
  induction h with
  | init perm start stop c hc =>
      unfold resetInitSplit at hc
      split at hc
      · cases hc
        intro m
        simp
      · cases hc
  | advance c c' newPos _ hadv ih =>
      unfold advanceCrit at hadv
      split at hadv
      · cases hadv
        exact fun m => foldl_add_sub_additive X y w _ _ _ _ ih m
      · cases hadv

/-- C5 witness: additivity evaluated on a concrete sweep. -/
theorem criterion_additivity_witness :
    exCrit1.left .sy + exCrit1.right .sy = exCrit1.total .sy :=
  criterion_additivity exX exY exW exCrit1
    (SweepReach.advance exCrit0 exCrit1 2
      (SweepReach.init [0, 1, 2] 0 3 exCrit0 rfl) rfl) .sy

/-- Accumulating samples whose single feature is constantly `v` keeps the
feature sum and the feature-feature cross-product sum proportional to the
total weight. -/
theorem statsOver_const_feature (X : Mat) (y w : Nat → ℚ) (v : ℚ) :
    ∀ (rows : List Nat) (s : StatVec),
      (∀ r ∈ rows, (X r).getD 0 0 = v) →
      s (.sx 0) = v * s .weight →
      s (.sxx 0 0) = v * v * s .weight →
      (rows.foldl (addSample X y w) s) (.sx 0)
          = v * (rows.foldl (addSample X y w) s) .weight ∧
      (rows.foldl (addSample X y w) s) (.sxx 0 0)
          = v * v * (rows.foldl (addSample X y w) s) .weight := by
  intro rows
  induction rows with
  | nil => intro s _ h1 h2; exact ⟨h1, h2⟩
  | cons r rest ih =>
      intro s hall h1 h2
      simp only [List.foldl_cons]
      refine ih _ (fun r' hr' => hall r' (List.mem_cons_of_mem _ hr')) ?_ ?_
      · simp only [addSample, momentContrib, hall r (List.mem_cons_self r rest), h1]
        ring
      · simp only [addSample, momentContrib, hall r (List.mem_cons_self r rest), h2]
        ring

/-- C6: whenever the normal-equation matrix is singular, `node_impurity` and
`children_impurity` return the intercept-only (target-variance) impurity
instead of raising; and statistics accumulated over a node whose feature is
constant (collinear with the intercept — in particular any single-sample
node) always yield a singular matrix, so such nodes take the fallback. -/
theorem impurity_singular_fallback :
    (∀ s : StatVec, normalDet s = 0 → nodeImpurity s = varianceImpurity s) ∧
    (∀ c : Crit,
      (normalDet c.left = 0 → (childrenImpurity c).1 = varianceImpurity c.left) ∧
      (normalDet c.right = 0 → (childrenImpurity c).2 = varianceImpurity c.right)) ∧
    (∀ (X : Mat) (y w : Nat → ℚ) (rows : List Nat) (v : ℚ),
      (∀ r ∈ rows, (X r).getD 0 0 = v) →
      normalDet (statsOver X y w rows) = 0 ∧
      nodeImpurity (statsOver X y w rows) = varianceImpurity (statsOver X y w rows)) := by
  refine ⟨fun s h => if_pos h, fun c => ⟨fun h => if_pos h, fun h => if_pos h⟩, ?_⟩
  intro X y w rows v hconst
  have h := statsOver_const_feature X y w v rows (fun _ => 0) hconst (by simp) (by simp)
  have hdet : normalDet (statsOver X y w rows) = 0 := by
    unfold normalDet
    unfold statsOver at h ⊢
    rw [h.1, h.2]
    ring
  exact ⟨hdet, if_pos hdet⟩

/-- C6 witness: a two-sample node with a constant feature has a singular
normal-equation matrix and falls back to the variance impurity. -/
theorem impurity_singular_fallback_witness :
    normalDet (statsOver exXConst exY exW [0, 1]) = 0 ∧
    nodeImpurity (statsOver exXConst exY exW [0, 1])
      = varianceImpurity (statsOver exXConst exY exW [0, 1]) :=
  impurity_singular_fallback.2.2 exXConst exY exW [0, 1] 1
    (fun _ _ => rfl)

/-- C8: `DecisionTreeLinearRegressor.fit` never returns normally: under any
fuel bound the outcome is never a normal return; with the default `'mselin'`
criterion it raises `NotImplementedError` immediately; and with any other
criterion value the recursion exhausts every fuel bound (unbounded
recursion with no base case). -/
theorem dtlrFit_never_returns (fuel : Nat) (c : DTLRCriterion)
    (hc : c ≠ DTLRCriterion.mselin) :
    dtlrFit fuel c ≠ FitOutcome.returned ∧
    dtlrFit (fuel + 1) DTLRCriterion.mselin = FitOutcome.notImplemented ∧
    dtlrFit fuel c = FitOutcome.outOfFuel := by
  have hdiv : ∀ (f : Nat) (c' : DTLRCriterion), c' ≠ DTLRCriterion.mselin →
      dtlrFit f c' = FitOutcome.outOfFuel := by
    intro f
    induction f with
    | zero => intro c' _; rfl
    | succ f ih =>
        intro c' hc'
        cases c' with
        | mselin => exact absurd rfl hc'
        | simple => exact ih .criterionObj (by simp)
        | criterionObj => exact ih .criterionObj (by simp)
        | otherVal s => exact ih (.otherVal s) (by simp)
  refine ⟨?_, rfl, hdiv fuel c hc⟩
  rw [hdiv fuel c hc]
  simp

/-- C8 witness: evaluated with the `'simple'` criterion and fuel 7. -/
theorem dtlrFit_never_returns_witness :
    dtlrFit 7 DTLRCriterion.simple ≠ FitOutcome.returned ∧
    dtlrFit 8 DTLRCriterion.mselin = FitOutcome.notImplemented ∧
    dtlrFit 7 DTLRCriterion.simple = FitOutcome.outOfFuel :=
  dtlrFit_never_returns 7 DTLRCriterion.simple (by simp)

/-- Characterization of a successful `fit` call: with a binner whose
`_mapping_train` succeeds, `fit` returns normally and writes all the fitted
attributes. -/
theorem fitPLR_ok_char (b : Binner) (Xv : Mat) (n : Nat) (y : Nat → ℚ)
    (ys : YShape) (w : Option (Nat → ℚ)) (st0 : PLRState)
    (assoc : Nat → Int) (mapping : List (BKey × Nat)) (leaves : List BKey)
    (h : mappingTrain b Xv n = .ok (assoc, mapping, leaves)) :
    fitPLR b (.ndarray Xv n) y ys w st0 =
      ({ st0 with
          binner_ := some b
          estimators_ := .fitted ((List.range mapping.length).map
            fun i => fitPiecewiseEstimator i n assoc)
          mapping_ := some mapping
          leaves_ := some leaves
          dim_ := some (dimOfY ys)
          mean_ := some (npAverage y n w) }, .ok ()) := by
  simp [fitPLR, xToValues, xIsPyList, xVals, xRows, h]

/-- C2 counterexample: fitting with a binner that has neither a `tree_`
attribute nor a `transform` method does raise `NotImplementedError`, but
attributes of the instance have already been modified at that point — on a
fresh instance, `estimators_` has been committed (set to `{}`), refuting
"no attribute of self is modified when the error is raised". -/
theorem fitPLR_other_modifies_state_cex :
    (fitPLR Binner.other (.ndarray exX 4) exY (.one 4) none initState).2
        = .error .notImplementedError ∧
    (fitPLR Binner.other (.ndarray exX 4) exY (.one 4) none initState).1.estimators_
        ≠ initState.estimators_ := by
  constructor
  · rfl
  · intro h
    simp [fitPLR, xToValues, xIsPyList, mappingTrain, initState] at h

/-- C2 (amended): `fit` with a binner of unrecognized capability raises
`NotImplementedError` from `_mapping_train`, before `mapping_`, `leaves_`,
`dim_` or `mean_` are assigned, but after `binner_` and `estimators_` (the
empty `{}`) have been committed to the instance. -/
theorem fitPLR_other_raises (Xv : Mat) (n : Nat) (y : Nat → ℚ) (ys : YShape)
    (w : Option (Nat → ℚ)) (st0 : PLRState) :
    fitPLR Binner.other (.ndarray Xv n) y ys w st0 =
      ({ st0 with binner_ := some Binner.other, estimators_ := .emptyInit },
       .error .notImplementedError) := by
  rfl

/-- C9: `fit` raises `TypeError` on a Python-list `X` before anything is
done to the instance (in particular before the binner is fitted), while a
DataFrame `X` is first converted to its values array and then treated
exactly like that array; with any supported binner the DataFrame call
returns normally. -/
theorem fitPLR_list_rejected_dataframe_accepted (b : Binner) (Xv : Mat) (n : Nat)
    (y : Nat → ℚ) (ys : YShape) (w : Option (Nat → ℚ)) (st0 : PLRState)
    (hb : b ≠ Binner.other) :
    fitPLR b (.pylist Xv n) y ys w st0 = (st0, .error .typeError) ∧
    fitPLR b (.dataframe Xv n) y ys w st0 = fitPLR b (.ndarray Xv n) y ys w st0 ∧
    ∃ st', fitPLR b (.dataframe Xv n) y ys w st0 = (st', .ok ()) := by
  refine ⟨rfl, rfl, ?_⟩
  cases b with
  | tree cl cr decPath => exact ⟨_, rfl⟩
  | transf codes => exact ⟨_, rfl⟩
  | other => exact absurd rfl hb

/-- C9 witness: evaluated on the concrete tree binner and data. -/
theorem fitPLR_list_rejected_dataframe_accepted_witness :
    fitPLR exBinner (.pylist exX 4) exY (.one 4) none initState
        = (initState, .error .typeError) ∧
    fitPLR exBinner (.dataframe exX 4) exY (.one 4) none initState
        = fitPLR exBinner (.ndarray exX 4) exY (.one 4) none initState ∧
    ∃ st', fitPLR exBinner (.dataframe exX 4) exY (.one 4) none initState
        = (st', .ok ()) :=
  fitPLR_list_rejected_dataframe_accepted exBinner exX 4 exY (.one 4) none initState
    (fun h => nomatch h)

/-- `numpy.any` over the first `n` rows holds exactly when some row index
below `n` satisfies the predicate. -/
theorem anyRow_iff (n : Nat) (p : Nat → Bool) :
    anyRow n p = true ↔ ∃ r, r < n ∧ p r = true := by
  simp [anyRow, List.any_eq_true, List.mem_range]

/-- Invariant of the `for j in leaves` loop of `_mapping_train` (tree
branch): if the listed leaves have pairwise-disjoint decision paths, the
loop keeps the mapping values densely numbered `0..ntree-1`, appends the
keys of exactly the non-empty leaves, increments `ntree` once per non-empty
leaf, and keeps every assigned bucket index inhabited by some row. -/
theorem mtTree_fold_inv (X : Mat) (n : Nat) (decPath : Row → Nat → Bool) :
    ∀ (ls : List Nat) (st : MTState),
      ls.Pairwise (fun j j' => ∀ x : Row,
        ¬(decPath x j = true ∧ decPath x j' = true)) →
      st.mapping.map Prod.snd = List.range st.ntree →
      (∀ i, i < st.ntree → ∃ r, r < n ∧ st.association r = (i : Int) ∧
        ∀ j' ∈ ls, decPath (X r) j' = false) →
      ((ls.foldl (mtTreeStep X n decPath) st).mapping.map Prod.snd
          = List.range (ls.foldl (mtTreeStep X n decPath) st).ntree) ∧
      ((ls.foldl (mtTreeStep X n decPath) st).mapping.map Prod.fst
          = st.mapping.map Prod.fst
            ++ (ls.filter (leafNonempty X n decPath)).map BKey.leaf) ∧
      ((ls.foldl (mtTreeStep X n decPath) st).ntree
          = st.ntree + ls.countP (leafNonempty X n decPath)) ∧
      (∀ i, i < (ls.foldl (mtTreeStep X n decPath) st).ntree →
        ∃ r, r < n ∧ (ls.foldl (mtTreeStep X n decPath) st).association r = (i : Int)) := by
  intro ls
  induction ls with
  | nil =>
      intro st _ h1 h2
      refine ⟨h1, by simp, by simp, fun i hi => ?_⟩
      obtain ⟨r, hr, ha, _⟩ := h2 i hi
      exact ⟨r, hr, ha⟩
  | cons j rest ih =>
      intro st hp h1 h2
      rw [List.pairwise_cons] at hp
      obtain ⟨hj, hrest⟩ := hp
      simp only [List.foldl_cons]
      by_cases hne : anyRow n (fun r => decPath (X r) j) = true
      · have hstep : mtTreeStep X n decPath st j =
            { association := fun r =>
                if r < n ∧ decPath (X r) j = true then (st.ntree : Int)
                else st.association r,
              mapping := st.mapping ++ [(BKey.leaf j, st.ntree)],
              ntree := st.ntree + 1 } := by
          simp [mtTreeStep, hne]
        rw [hstep]
        have h1' : (st.mapping ++ [(BKey.leaf j, st.ntree)]).map Prod.snd
            = List.range (st.ntree + 1) := by
          simp [List.range_succ, h1]
        have h2' : ∀ i, i < st.ntree + 1 → ∃ r, r < n ∧
            (if r < n ∧ decPath (X r) j = true then (st.ntree : Int)
             else st.association r) = (i : Int) ∧
            ∀ j' ∈ rest, decPath (X r) j' = false := by
          intro i hi
          rcases Nat.lt_or_ge i st.ntree with hlt | hge
          · obtain ⟨r, hr, ha, hall⟩ := h2 i hlt
            have hjf : decPath (X r) j = false := hall j (List.mem_cons_self j rest)
            refine ⟨r, hr, ?_, fun j' hj' => hall j' (List.mem_cons_of_mem _ hj')⟩
            rw [if_neg (by simp [hjf])]
            exact ha
          · have hieq : i = st.ntree := by omega
            obtain ⟨r, hr, hdp⟩ := (anyRow_iff n _).1 hne
            refine ⟨r, hr, ?_, fun j' hj' => ?_⟩
            · rw [if_pos ⟨hr, hdp⟩, hieq]
            · cases hbool : decPath (X r) j' with
              | false => rfl
              | true => exact absurd ⟨hdp, hbool⟩ (hj j' hj' (X r))
        obtain ⟨A, B, C, D⟩ := ih
          { association := fun r =>
              if r < n ∧ decPath (X r) j = true then (st.ntree : Int)
              else st.association r,
            mapping := st.mapping ++ [(BKey.leaf j, st.ntree)],
            ntree := st.ntree + 1 } hrest h1' h2'
        have hnonempty : leafNonempty X n decPath j = true := hne
        refine ⟨A, ?_, ?_, D⟩
        · rw [B]
          simp [List.filter_cons, hnonempty, List.append_assoc]
        · rw [C]
          simp [List.countP_cons, hnonempty]
          omega
      · have hstep : mtTreeStep X n decPath st j = st := by
          simp [mtTreeStep, hne]
        rw [hstep]
        have h2' : ∀ i, i < st.ntree → ∃ r, r < n ∧ st.association r = (i : Int) ∧
            ∀ j' ∈ rest, decPath (X r) j' = false := by
          intro i hi
          obtain ⟨r, hr, ha, hall⟩ := h2 i hi
          exact ⟨r, hr, ha, fun j' hj' => hall j' (List.mem_cons_of_mem _ hj')⟩
        obtain ⟨A, B, C, D⟩ := ih _ hrest h1 h2'
        have hnonempty : leafNonempty X n decPath j = false := by
          simpa [leafNonempty] using hne
        refine ⟨A, ?_, ?_, D⟩
        · rw [B]
          simp [List.filter_cons, hnonempty]
        · rw [C]
          simp [List.countP_cons, hnonempty]

/-- The keys of the enumerated code mapping are the codes in order. -/
theorem enumCodes_map_fst : ∀ (ls : List (List Int)) (off : Nat),
    (enumCodes off ls).map Prod.fst = ls.map BKey.code := by
  intro ls
  induction ls with
  | nil => intro off; rfl
  | cons c rest ih => intro off; simp [enumCodes, ih]

/-- The values of the enumerated code mapping are consecutive integers. -/
theorem enumCodes_map_snd : ∀ (ls : List (List Int)) (off : Nat),
    (enumCodes off ls).map Prod.snd = List.range' off ls.length := by
  intro ls
  induction ls with
  | nil => intro off; rfl
  | cons c rest ih => intro off; simp [enumCodes, ih, List.range'_succ]

/-- Looking up the `k`-th of a duplicate-free code list in its enumerated
mapping yields index `off + k`. -/
theorem mlookup_enumCodes : ∀ (ls : List (List Int)) (off k : Nat)
    (hk : k < ls.length) (c : List Int), ls.Nodup → ls.get ⟨k, hk⟩ = c →
    mlookup (enumCodes off ls) (BKey.code c) = ((off + k : Nat) : Int) := by
  intro ls
  induction ls with
  | nil => intro off k hk; exact absurd hk (by simp)
  | cons c0 rest ih =>
      intro off k hk c hnd hget
      rw [List.nodup_cons] at hnd
      by_cases hc : c0 = c
      · have hk0 : k = 0 := by
          by_contra hk0
          obtain ⟨k', rfl⟩ := Nat.exists_eq_succ_of_ne_zero hk0
          have hk' : k' < rest.length := by simpa using hk
          have hcr : c ∈ rest := by
            have hgg : (c0 :: rest).get ⟨k' + 1, hk⟩ = rest.get ⟨k', hk'⟩ := rfl
            rw [← hget, hgg]
            exact List.get_mem rest k' hk'
          rw [← hc] at hcr
          exact hnd.1 hcr
        subst hk0
        simp only [enumCodes, mlookup]
        rw [List.find?_cons_of_pos _ (by simp [hc])]
        simp
      · have hk0 : k ≠ 0 := by
          intro h
          subst h
          exact hc hget
        obtain ⟨k', rfl⟩ := Nat.exists_eq_succ_of_ne_zero hk0
        have hk' : k' < rest.length := by
          simpa using hk
        have hget' : rest.get ⟨k', hk'⟩ = c := by
          simpa using hget
        simp only [enumCodes, mlookup]
        rw [List.find?_cons_of_neg _ (by simp [hc])]
        have := ih (off + 1) k' hk' c hnd.2 hget'
        simp only [mlookup] at this
        rw [this]
        congr 1
        omega

/-- The sorted distinct transform codes are duplicate-free. -/
theorem transfLeaves_nodup (X : Mat) (n : Nat) (codes : Row → List Int) :
    (transfLeaves X n codes).Nodup :=
  (List.perm_insertionSort _ _).symm.nodup (List.nodup_dedup _)

/-- Membership in the sorted distinct transform codes is membership among
the observed codes. -/
theorem mem_transfLeaves (X : Mat) (n : Nat) (codes : Row → List Int)
    (c : List Int) :
    c ∈ transfLeaves X n codes ↔ ∃ r, r < n ∧ codes (X r) = c := by
  rw [transfLeaves, (List.perm_insertionSort _ _).mem_iff, List.mem_dedup,
    transfCodesList]
  simp [List.mem_range, eq_comm]

/-- Soundness of `_mapping_train` for a supported binner: mapping values are
exactly the dense indices `0..k-1`, mapping keys are exactly the distinct
non-empty bucket keys, and every index below `k` is the association of at
least one training row. -/
theorem mappingTrain_sound (b : Binner) (Xv : Mat) (n : Nat)
    (assoc : Nat → Int) (mapping : List (BKey × Nat)) (leaves : List BKey)
    (hv : binnerValid b)
    (h : mappingTrain b Xv n = .ok (assoc, mapping, leaves)) :
    mapping.map Prod.snd = List.range mapping.length ∧
    mapping.map Prod.fst = nonEmptyKeys b Xv n ∧
    (∀ i, i < mapping.length → ∃ r, r < n ∧ assoc r = (i : Int)) := by
  cases b with
  | tree cl cr decPath =>
      simp only [mappingTrain, Except.ok.injEq, Prod.mk.injEq] at h
      obtain ⟨ha, hm, _⟩ := h
      have hinv := mtTree_fold_inv Xv n decPath (treeLeaves cl cr)
        ⟨fun _ => -1, [], 0⟩ hv (by simp) (by intro i hi; exact absurd hi (Nat.not_lt_zero i))
      obtain ⟨A, B, C, D⟩ := hinv
      have hst : mappingTrainTree Xv n cl cr decPath
          = (treeLeaves cl cr).foldl (mtTreeStep Xv n decPath) ⟨fun _ => -1, [], 0⟩ := rfl
      rw [← hst] at A B C D
      have hlen : mapping.length = (mappingTrainTree Xv n cl cr decPath).ntree := by
        have := congrArg List.length A
        simpa [hm] using this
      subst hm ha
      refine ⟨by rw [A, hlen], ?_, ?_⟩
      · rw [B]
        simp [nonEmptyKeys]
      · intro i hi
        exact D i (by omega)
  | transf codes =>
      simp only [mappingTrain, Except.ok.injEq, Prod.mk.injEq] at h
      obtain ⟨ha, hm, _⟩ := h
      have hmlen : mapping.length = (transfLeaves Xv n codes).length := by
        have := congrArg List.length (enumCodes_map_fst (transfLeaves Xv n codes) 0)
        simpa [← hm, mappingTrainTransf] using this
      subst hm ha
      refine ⟨?_, ?_, ?_⟩
      · rw [show (mappingTrainTransf Xv n codes).mapping
            = enumCodes 0 (transfLeaves Xv n codes) from rfl] at hmlen ⊢
        rw [enumCodes_map_snd, hmlen, List.range_eq_range']
      · rw [show (mappingTrainTransf Xv n codes).mapping
            = enumCodes 0 (transfLeaves Xv n codes) from rfl]
        rw [enumCodes_map_fst]
        rfl
      · intro i hi
        rw [hmlen] at hi
        have hmem : (transfLeaves Xv n codes).get ⟨i, hi⟩ ∈ transfLeaves Xv n codes :=
          List.get_mem (transfLeaves Xv n codes) i hi
        obtain ⟨r, hr, hc⟩ := (mem_transfLeaves Xv n codes _).1 hmem
        refine ⟨r, hr, ?_⟩
        show (mappingTrainTransf Xv n codes).association r = (i : Int)
        have hl := mlookup_enumCodes (transfLeaves Xv n codes) 0 i hi
          ((transfLeaves Xv n codes).get ⟨i, hi⟩)
          (transfLeaves_nodup Xv n codes) rfl
        simp only [mappingTrainTransf]
        rw [if_pos hr, hc, hl]
        simp
  | other => exact absurd h (by simp [mappingTrain])

/-- A bucket index associated to at least one training row gets a fitted
estimator from the per-bucket fit helper. -/
theorem fitPiecewiseEstimator_some_of_exists (i n : Nat) (assoc : Nat → Int)
    (h : ∃ r, r < n ∧ assoc r = (i : Int)) :
    fitPiecewiseEstimator i n assoc ≠ none := by
  obtain ⟨r, hr, ha⟩ := h
  have hmem : r ∈ (List.range n).filter fun r' => assoc r' = (i : Int) := by
    simp [List.mem_filter, List.mem_range, hr, ha]
  cases hE : ((List.range n).filter fun r' => assoc r' = (i : Int)).isEmpty with
  | true =>
      rw [List.isEmpty_iff] at hE
      rw [hE] at hmem
      exact absurd hmem (List.not_mem_nil r)
  | false =>
      simp [fitPiecewiseEstimator, hE]

/-- The concrete binner's leaves have pairwise-disjoint decision paths. -/
theorem exBinner_valid : binnerValid exBinner := by
  show (treeLeaves exCL exCR).Pairwise _
  have h : treeLeaves exCL exCR = [1, 3, 4] := by decide
  rw [h]
  have h13 : ∀ x : Row, ¬(exDecPath x 1 = true ∧ exDecPath x 3 = true) := by
    intro x hx
    simp only [exDecPath] at hx
    norm_num at hx
    obtain ⟨h1, h2, _⟩ := hx
    linarith
  have h14 : ∀ x : Row, ¬(exDecPath x 1 = true ∧ exDecPath x 4 = true) := by
    intro x hx
    simp only [exDecPath] at hx
    norm_num at hx
    obtain ⟨h1, h2⟩ := hx
    linarith
  have h34 : ∀ x : Row, ¬(exDecPath x 3 = true ∧ exDecPath x 4 = true) := by
    intro x hx
    simp only [exDecPath] at hx
    norm_num at hx
    obtain ⟨⟨h1, h2⟩, h3⟩ := hx
    linarith
  refine List.pairwise_cons.2 ⟨?_, List.pairwise_cons.2 ⟨?_,
    List.pairwise_cons.2 ⟨?_, List.Pairwise.nil⟩⟩⟩
  · intro j' hj'
    rcases List.mem_cons.1 hj' with h' | h'
    · rw [h']; exact h13
    · rcases List.mem_cons.1 h' with h'' | h''
      · rw [h'']; exact h14
      · exact absurd h'' (List.not_mem_nil j')
  · intro j' hj'
    rcases List.mem_cons.1 hj' with h' | h'
    · rw [h']; exact h34
    · exact absurd h' (List.not_mem_nil j')
  · intro j' hj'
    exact absurd hj' (List.not_mem_nil j')

/-- C4: after a successful fit, the trained `mapping_` sends the distinct
non-empty bucket keys bijectively to the dense indices `0..k-1`, the
per-bucket fit produces a (non-absent) trained estimator for every one of
these `k` indices, and `n_estimators_` equals `k`. -/
theorem mapping_dense_all_estimators_fitted (b : Binner) (Xv : Mat) (n : Nat)
    (y : Nat → ℚ) (ys : YShape) (w : Option (Nat → ℚ))
    (assoc : Nat → Int) (mapping : List (BKey × Nat)) (leaves : List BKey)
    (hv : binnerValid b)
    (h : mappingTrain b Xv n = .ok (assoc, mapping, leaves)) :
    mapping.map Prod.snd = List.range mapping.length ∧
    mapping.map Prod.fst = nonEmptyKeys b Xv n ∧
    (mapping.map Prod.fst).Nodup ∧
    (∀ i, i < mapping.length → fitPiecewiseEstimator i n assoc ≠ none) ∧
    nEstimators (fitPLR b (.ndarray Xv n) y ys w initState).1 = some mapping.length := by
  obtain ⟨hsnd, hfst, hex⟩ := mappingTrain_sound b Xv n assoc mapping leaves hv h
  refine ⟨hsnd, hfst, ?_, ?_, ?_⟩
  · rw [hfst]
    cases b with
    | tree cl cr decPath =>
        show (((treeLeaves cl cr).filter (leafNonempty Xv n decPath)).map BKey.leaf).Nodup
        have h1 : (treeLeaves cl cr).Nodup := (List.nodup_range _).filter _
        exact (h1.filter _).map (fun a b hab => by simpa using hab)
    | transf codes =>
        exact (transfLeaves_nodup Xv n codes).map (fun a b hab => by simpa using hab)
    | other => exact absurd hv (by simp [binnerValid])
  · intro i hi
    exact fitPiecewiseEstimator_some_of_exists i n assoc (hex i hi)
  · rw [fitPLR_ok_char b Xv n y ys w initState assoc mapping leaves h]
    simp [nEstimators]

/-- C4 witness: the dense-mapping and all-estimators-fitted conclusions
evaluated on the concrete tree binner (whose leaf 4 is empty). -/
theorem mapping_dense_all_estimators_fitted_witness :
    exMT.mapping.map Prod.snd = List.range exMT.mapping.length ∧
    exMT.mapping.map Prod.fst = nonEmptyKeys exBinner exX 4 ∧
    (exMT.mapping.map Prod.fst).Nodup ∧
    (∀ i, i < exMT.mapping.length →
      fitPiecewiseEstimator i 4 exMT.association ≠ none) ∧
    nEstimators (fitPLR exBinner (.ndarray exX 4) exY (.one 4) none initState).1
      = some exMT.mapping.length :=
  mapping_dense_all_estimators_fitted exBinner exX 4 exY (.one 4) none
    exMT.association exMT.mapping (binnerLeaves exBinner exX 4) exBinner_valid rfl

/-- C3: a fit whose binner has an empty leaf (no training sample) still
returns normally; the per-bucket fit helper returns an absent value for an
index matching no training row; the empty leaf gets no mapping entry (hence
no estimator); and every estimator of the fitted list is present. -/
theorem fit_empty_bucket_recovers (cl cr : List Int) (decPath : Row → Nat → Bool)
    (Xv : Mat) (n : Nat) (y : Nat → ℚ) (ys : YShape) (w : Option (Nat → ℚ))
    (hv : binnerValid (Binner.tree cl cr decPath))
    (_hEmpty : ∃ j ∈ treeLeaves cl cr, leafNonempty Xv n decPath j = false) :
    (fitPLR (Binner.tree cl cr decPath) (.ndarray Xv n) y ys w initState).2 = .ok () ∧
    (∀ (i : Nat) (assoc : Nat → Int), (∀ r, r < n → assoc r ≠ (i : Int)) →
      fitPiecewiseEstimator i n assoc = none) ∧
    (∀ j ∈ treeLeaves cl cr, leafNonempty Xv n decPath j = false →
      BKey.leaf j ∉ (mappingTrainTree Xv n cl cr decPath).mapping.map Prod.fst) ∧
    (∀ ests, (fitPLR (Binner.tree cl cr decPath) (.ndarray Xv n) y ys w initState).1.estimators_
        = .fitted ests → ∀ e ∈ ests, e ≠ none) := by
  have hmt : mappingTrain (Binner.tree cl cr decPath) Xv n =
      .ok ((mappingTrainTree Xv n cl cr decPath).association,
           (mappingTrainTree Xv n cl cr decPath).mapping,
           binnerLeaves (Binner.tree cl cr decPath) Xv n) := rfl
  have hchar := fitPLR_ok_char (Binner.tree cl cr decPath) Xv n y ys w initState
    _ _ _ hmt
  obtain ⟨hsnd, hfst, hex⟩ := mappingTrain_sound _ Xv n _ _ _ hv hmt
  refine ⟨by rw [hchar], ?_, ?_, ?_⟩
  · intro i assoc hno
    have hfil : ((List.range n).filter fun r' => assoc r' = (i : Int)) = [] := by
      rw [List.filter_eq_nil_iff]
      intro r hr
      simp only [decide_eq_true_eq]
      exact hno r (List.mem_range.1 hr)
    simp [fitPiecewiseEstimator, hfil]
  · intro j hj hempty hmem
    rw [hfst] at hmem
    simp only [nonEmptyKeys, List.mem_map] at hmem
    obtain ⟨j', hj', hjeq⟩ := hmem
    have : j' = j := by simpa using hjeq
    subst this
    rw [List.mem_filter] at hj'
    rw [hempty] at hj'
    exact Bool.noConfusion hj'.2
  · intro ests hests e he
    rw [hchar] at hests
    simp only at hests
    have hests' : ests = (List.range (mappingTrainTree Xv n cl cr decPath).mapping.length).map
        fun i => fitPiecewiseEstimator i n (mappingTrainTree Xv n cl cr decPath).association := by
      cases hests
      rfl
    rw [hests'] at he
    rw [List.mem_map] at he
    obtain ⟨i, hi, hie⟩ := he
    rw [← hie]
    exact fitPiecewiseEstimator_some_of_exists i n _ (hex i (List.mem_range.1 hi))

/-- C3 witness: evaluated on the concrete binner whose leaf 4 is empty on
the training data. -/
theorem fit_empty_bucket_recovers_witness :
    (fitPLR (Binner.tree exCL exCR exDecPath) (.ndarray exX 4) exY (.one 4)
        none initState).2 = .ok () ∧
    (∀ (i : Nat) (assoc : Nat → Int), (∀ r, r < 4 → assoc r ≠ (i : Int)) →
      fitPiecewiseEstimator i 4 assoc = none) ∧
    (∀ j ∈ treeLeaves exCL exCR, leafNonempty exX 4 exDecPath j = false →
      BKey.leaf j ∉ (mappingTrainTree exX 4 exCL exCR exDecPath).mapping.map Prod.fst) ∧
    (∀ ests, (fitPLR (Binner.tree exCL exCR exDecPath) (.ndarray exX 4) exY (.one 4)
        none initState).1.estimators_ = .fitted ests → ∀ e ∈ ests, e ≠ none) :=
  fit_empty_bucket_recovers exCL exCR exDecPath exX 4 exY (.one 4) none
    exBinner_valid ⟨4, by decide, by decide⟩

/-- When every listed estimator is present, the parallel per-bucket predict
dispatch succeeds and returns one item per listed index. -/
theorem collectPreds_ok (ests : List (Option (List Nat)))
    (estPred : List Nat → Row → ℚ) (Xv : Mat) (n : Nat) (association : Nat → Int) :
    ∀ (order : List Nat), (∀ i ∈ order, ests.getD i none ≠ none) →
      collectPreds ests estPred Xv n association order
        = .ok (order.map (predictItem ests estPred Xv n association)) := by
  intro order
  induction order with
  | nil => intro _; rfl
  | cons i rest ih =>
      intro h
      have hi : ests.getD i none ≠ none := h i (List.mem_cons_self i rest)
      have hrest := ih fun i' hi' => h i' (List.mem_cons_of_mem _ hi')
      simp only [collectPreds, List.map_cons]
      by_cases hany : anyRow n (fun r => association r = (i : Int)) = true
      · obtain ⟨e, he⟩ := Option.ne_none_iff_exists'.1 hi
        simp only [predictPiecewiseEstimator, predictItem, hany, if_true, he, hrest]
      · have hany' : anyRow n (fun r => association r = (i : Int)) = false :=
          Bool.not_eq_true _ ▸ (by simpa using hany)
        simp only [predictPiecewiseEstimator, predictItem, hany', Bool.false_eq_true,
          if_false, hrest]

/-- Gathering a bucket's successful predict item is the same as the
per-bucket overwrite step. -/
theorem gatherStep_predictItem (ests : List (Option (List Nat)))
    (estPred : List Nat → Row → ℚ) (Xv : Mat) (n : Nat) (association : Nat → Int)
    (pred : Nat → ℚ) (i : Nat) :
    gatherStep pred (predictItem ests estPred Xv n association i)
      = gatherOrderStep ests estPred Xv n association pred i := by
  unfold predictItem gatherOrderStep
  cases he : ests.getD i none with
  | none =>
      cases hany : anyRow n (fun r => association r = (i : Int)) <;> rfl
  | some e =>
      cases hany : anyRow n (fun r => association r = (i : Int)) with
      | false =>
          funext r
          show pred r
              = (if r < n ∧ association r = (i : Int) then estPred e (Xv r) else pred r)
          by_cases hc : r < n ∧ association r = (i : Int)
          · have htrue : anyRow n (fun r' => association r' = (i : Int)) = true :=
              (anyRow_iff n _).2 ⟨r, hc.1, by simp [hc.2]⟩
            rw [hany] at htrue
            exact Bool.noConfusion htrue
          · rw [if_neg hc]
      | true =>
          funext r
          show (if (decide (r < n) && decide (association r = (i : Int))) = true
              then estPred e (Xv r) else pred r)
            = (if r < n ∧ association r = (i : Int) then estPred e (Xv r) else pred r)
          by_cases hc : r < n ∧ association r = (i : Int)
          · rw [if_pos (by simp [hc.1, hc.2]), if_pos hc]
          · rw [if_neg ?_, if_neg hc]
            intro hb
            rw [Bool.and_eq_true] at hb
            exact hc ⟨of_decide_eq_true hb.1, of_decide_eq_true hb.2⟩

/-- Folding the gathered items equals folding the overwrite steps. -/
theorem gather_foldl_map_eq (ests : List (Option (List Nat)))
    (estPred : List Nat → Row → ℚ) (Xv : Mat) (n : Nat) (association : Nat → Int) :
    ∀ (order : List Nat) (pred : Nat → ℚ),
      (order.map (predictItem ests estPred Xv n association)).foldl gatherStep pred
        = order.foldl (gatherOrderStep ests estPred Xv n association) pred := by
  intro order
  induction order with
  | nil => intro pred; rfl
  | cons i rest ih =>
      intro pred
      simp only [List.map_cons, List.foldl_cons, gatherStep_predictItem, ih]

/-- A gather step leaves a row unchanged when the row is not selected for
bucket `i` or bucket `i` has no estimator. -/
theorem gatherOrderStep_skip (ests : List (Option (List Nat)))
    (estPred : List Nat → Row → ℚ) (Xv : Mat) (n : Nat) (association : Nat → Int)
    (pred : Nat → ℚ) (i r : Nat)
    (h : ¬(r < n ∧ association r = (i : Int)) ∨ ests.getD i none = none) :
    gatherOrderStep ests estPred Xv n association pred i r = pred r := by
  unfold gatherOrderStep
  cases hE : ests.getD i none with
  | none => rfl
  | some e =>
      rcases h with h | h
      · show (if r < n ∧ association r = (i : Int) then estPred e (Xv r) else pred r)
            = pred r
        rw [if_neg h]
      · rw [hE] at h
        exact Option.noConfusion h

/-- A gather step overwrites a selected row with its bucket estimator's
prediction. -/
theorem gatherOrderStep_hit (ests : List (Option (List Nat)))
    (estPred : List Nat → Row → ℚ) (Xv : Mat) (n : Nat) (association : Nat → Int)
    (pred : Nat → ℚ) (i r : Nat) (e : List Nat)
    (hr : r < n) (ha : association r = (i : Int)) (hE : ests.getD i none = some e) :
    gatherOrderStep ests estPred Xv n association pred i r = estPred e (Xv r) := by
  unfold gatherOrderStep
  rw [hE]
  show (if r < n ∧ association r = (i : Int) then estPred e (Xv r) else pred r) = _
  rw [if_pos ⟨hr, ha⟩]

/-- Pointwise value of the gathered prediction over any order: a row keeps
its initial value unless its association selects a listed bucket whose
estimator is present, in which case it gets that bucket's prediction. -/
theorem predictGatherOrder_pointwise (ests : List (Option (List Nat)))
    (estPred : List Nat → Row → ℚ) (Xv : Mat) (n : Nat) (association : Nat → Int) :
    ∀ (order : List Nat) (pred : Nat → ℚ) (r : Nat),
      (order.foldl (gatherOrderStep ests estPred Xv n association) pred) r
        = if r < n ∧ 0 ≤ association r ∧ (association r).toNat ∈ order then
            (match ests.getD (association r).toNat none with
             | some e => estPred e (Xv r)
             | none => pred r)
          else pred r := by
  intro order
  induction order with
  | nil =>
      intro pred r
      simp
  | cons i rest ih =>
      intro pred r
      rw [List.foldl_cons, ih]
      by_cases hcond : r < n ∧ 0 ≤ association r ∧ (association r).toNat ∈ (i :: rest)
      · obtain ⟨hr, ha0, han⟩ := hcond
        have hA : r < n ∧ 0 ≤ association r ∧ (association r).toNat ∈ (i :: rest) :=
          ⟨hr, ha0, han⟩
        by_cases hmem : (association r).toNat ∈ rest
        · have hB : r < n ∧ 0 ≤ association r ∧ (association r).toNat ∈ rest :=
            ⟨hr, ha0, hmem⟩
          rw [if_pos hB, if_pos hA]
          cases hE : ests.getD (association r).toNat none with
          | some e => rfl
          | none =>
              show gatherOrderStep ests estPred Xv n association pred i r = pred r
              by_cases hia : i = (association r).toNat
              · subst hia
                exact gatherOrderStep_skip _ _ _ _ _ _ _ _ (Or.inr hE)
              · refine gatherOrderStep_skip _ _ _ _ _ _ _ _ (Or.inl ?_)
                intro hcc
                apply hia
                rw [← Int.toNat_of_nonneg ha0] at hcc
                exact_mod_cast hcc.2.symm
        · have hia : (association r).toNat = i := by
            rcases List.mem_cons.1 han with h | h
            · exact h
            · exact absurd h hmem
          rw [if_neg (fun hcc : r < n ∧ 0 ≤ association r ∧ (association r).toNat ∈ rest =>
            hmem hcc.2.2), if_pos hA]
          cases hE : ests.getD (association r).toNat none with
          | some e =>
              show gatherOrderStep ests estPred Xv n association pred i r = estPred e (Xv r)
              rw [hia] at hE
              refine gatherOrderStep_hit _ _ _ _ _ _ _ _ e hr ?_ hE
              rw [← Int.toNat_of_nonneg ha0, hia]
          | none =>
              show gatherOrderStep ests estPred Xv n association pred i r = pred r
              rw [hia] at hE
              exact gatherOrderStep_skip _ _ _ _ _ _ _ _ (Or.inr hE)
      · rw [if_neg (fun hcc : r < n ∧ 0 ≤ association r ∧ (association r).toNat ∈ rest =>
          hcond ⟨hcc.1, hcc.2.1, List.mem_cons_of_mem _ hcc.2.2⟩), if_neg hcond]
        refine gatherOrderStep_skip _ _ _ _ _ _ _ _ (Or.inl ?_)
        intro hcc
        apply hcond
        refine ⟨hcc.1, ?_, ?_⟩
        · rw [hcc.2]
          exact Int.natCast_nonneg i
        · rw [hcc.2]
          simp

/-- C7: the row sets selected per estimator index are pairwise disjoint
(an association value equals at most one bucket index), and gathering the
per-bucket predictions in any order over the estimator indices gives the
same output as the in-order gather, so `predict`'s result does not depend
on the dispatch/gather order of the worker pool. -/
theorem predict_buckets_disjoint_order_independent
    (ests : List (Option (List Nat))) (estPred : List Nat → Row → ℚ)
    (Xv : Mat) (n : Nat) (association : Nat → Int) (mean : ℚ)
    (order : List Nat) (hperm : order.Perm (List.range ests.length)) :
    (∀ i j : Nat, i ≠ j →
      ∀ r, ¬(association r = (i : Int) ∧ association r = (j : Int))) ∧
    (∀ r, predictGatherOrder order ests estPred Xv n association mean r
        = predictGatherOrder (List.range ests.length) ests estPred Xv n
            association mean r) := by
  constructor
  · intro i j hij r hboth
    apply hij
    have h2 := hboth.2
    rw [hboth.1] at h2
    exact_mod_cast h2
  · intro r
    unfold predictGatherOrder
    rw [predictGatherOrder_pointwise, predictGatherOrder_pointwise]
    by_cases hc : r < n ∧ 0 ≤ association r ∧ (association r).toNat ∈ order
    · have hA : r < n ∧ 0 ≤ association r ∧
          (association r).toNat ∈ List.range ests.length :=
        ⟨hc.1, hc.2.1, hperm.mem_iff.1 hc.2.2⟩
      rw [if_pos hc, if_pos hA]
    · have hA : ¬(r < n ∧ 0 ≤ association r ∧
          (association r).toNat ∈ List.range ests.length) :=
        fun hc' => hc ⟨hc'.1, hc'.2.1, hperm.mem_iff.2 hc'.2.2⟩
      rw [if_neg hc, if_neg hA]

/-- C7 witness: disjointness and order-independence evaluated on a concrete
association, estimator list and the reversed gather order. -/
theorem predict_buckets_disjoint_order_independent_witness :
    ¬(exAssoc 0 = (0 : Int) ∧ exAssoc 0 = (1 : Int)) ∧
    predictGatherOrder [1, 0] exEsts exEstPred exXP 2 exAssoc 0 0
      = predictGatherOrder (List.range exEsts.length) exEsts exEstPred exXP 2
          exAssoc 0 0 :=
  ⟨(predict_buckets_disjoint_order_independent exEsts exEstPred exXP 2 exAssoc 0
      [1, 0] (by decide)).1 0 1 (by decide) 0,
   (predict_buckets_disjoint_order_independent exEsts exEstPred exXP 2 exAssoc 0
      [1, 0] (by decide)).2 0⟩

/-- Indexing with a default into a map over `List.range`. -/
theorem getD_map_range {α : Type} (k i : Nat) (f : Nat → α) (d : α) (hi : i < k) :
    ((List.range k).map f).getD i d = f i := by
  rw [List.getD_eq_getElem _ _ (by simpa using hi)]
  simp

/-- A fitted instance whose estimators are all present predicts without
error, returning the gathered per-bucket predictions over the recomputed
association. -/
theorem predictPLR_fitted_eq (ests : List (Option (List Nat)))
    (estPred : List Nat → Row → ℚ) (b : Binner) (mapping : List (BKey × Nat))
    (leaves : List BKey) (mean : ℚ) (dim : Nat) (XPv : Mat) (XPn : Nat)
    (assocP : Nat → Int)
    (hsome : ∀ i, i < ests.length → ests.getD i none ≠ none)
    (htb : transformBins b mapping leaves XPv XPn = .ok assocP) :
    predictPLR ⟨some b, .fitted ests, some mapping, some leaves, some dim, some mean⟩
        estPred (.ndarray XPv XPn)
      = .ok (predictGatherOrder (List.range ests.length) ests estPred XPv XPn
          assocP mean) := by
  unfold predictPLR
  dsimp only [xToValues, xVals, xRows]
  rw [htb]
  dsimp only
  rw [collectPreds_ok ests estPred XPv XPn assocP (List.range ests.length)
    (fun i hi => hsome i (List.mem_range.1 hi))]
  dsimp only
  rw [gather_foldl_map_eq]
  rfl

/-- Every estimator trained by a successful fit is present. -/
theorem fitted_ests_all_some (b : Binner) (Xv : Mat) (n : Nat)
    (assoc : Nat → Int) (mapping : List (BKey × Nat)) (leaves : List BKey)
    (hv : binnerValid b)
    (hmt : mappingTrain b Xv n = .ok (assoc, mapping, leaves)) :
    ∀ i, i < ((List.range mapping.length).map
        fun i => fitPiecewiseEstimator i n assoc).length →
      ((List.range mapping.length).map
        fun i => fitPiecewiseEstimator i n assoc).getD i none ≠ none := by
  obtain ⟨_, _, hex⟩ := mappingTrain_sound b Xv n assoc mapping leaves hv hmt
  intro i hi
  have hik : i < mapping.length := by simpa using hi
  rw [getD_map_range mapping.length i _ none hik]
  exact fitPiecewiseEstimator_some_of_exists i n assoc (hex i hik)

/-- C1: for a fitted model, every prediction row whose recomputed bucket
code is not in the trained mapping (`transform_bins` assigns it `-1`)
receives exactly `mean_`, the weighted average of the training targets set
at fit time; `predict` succeeds (no error, no absent value). -/
theorem predict_missing_bucket_gets_mean (b : Binner) (Xv : Mat) (n : Nat)
    (y : Nat → ℚ) (ys : YShape) (w : Option (Nat → ℚ))
    (assoc : Nat → Int) (mapping : List (BKey × Nat)) (leaves : List BKey)
    (estPred : List Nat → Row → ℚ) (XPv : Mat) (XPn rq : Nat) (assocP : Nat → Int)
    (hv : binnerValid b)
    (hmt : mappingTrain b Xv n = .ok (assoc, mapping, leaves))
    (htb : transformBins b mapping leaves XPv XPn = .ok assocP)
    (hmiss : assocP rq = -1) :
    ∃ pred, predictPLR (fitPLR b (.ndarray Xv n) y ys w initState).1 estPred
        (.ndarray XPv XPn) = .ok pred ∧ pred rq = npAverage y n w := by
  rw [fitPLR_ok_char b Xv n y ys w initState assoc mapping leaves hmt]
  rw [predictPLR_fitted_eq _ estPred b mapping leaves (npAverage y n w)
    (dimOfY ys) XPv XPn assocP (fitted_ests_all_some b Xv n assoc mapping leaves hv hmt) htb]
  refine ⟨_, rfl, ?_⟩
  rw [predictGatherOrder, predictGatherOrder_pointwise]
  rw [if_neg ?_]
  intro hcc
  rw [hmiss] at hcc
  exact absurd hcc.2.1 (by decide)

/-- C1 witness: the concrete binner is fitted on four rows (leaf 4 empty);
the prediction row `[12]` maps to leaf 4, absent from the mapping, and
receives the training target mean. -/
theorem predict_missing_bucket_gets_mean_witness :
    ∃ pred, predictPLR (fitPLR exBinner (.ndarray exX 4) exY (.one 4) none initState).1
        exEstPred (.ndarray exXP 1) = .ok pred ∧ pred 0 = npAverage exY 4 none :=
  predict_missing_bucket_gets_mean exBinner exX 4 exY (.one 4) none
    exMT.association exMT.mapping (binnerLeaves exBinner exX 4)
    exEstPred exXP 1 0 exAssocP exBinner_valid rfl rfl (by decide)

/-- C10 counterexample: for a two-dimensional training target with a single
column (`y.shape == (2, 1)`), `dim_` is `y.shape[1] = 1`, so `predict`
allocates a flat `(n,)` array, not the `(n, y.shape[1])` array the claim
requires for every two-dimensional `y`. -/
theorem predict_shape_two_dim_single_col_cex :
    ¬(predShapeOf 2 (dimOfY (YShape.two 2 1)) = NpShape.two 2 1) := by decide

/-- C10 (amended): `predict` allocates shape `(n, y.shape[1])` only when
`y` is two-dimensional with more than one column; for one-dimensional `y`
and for two-dimensional `y` with a single column it allocates the flat
`(n,)` shape (`dim_ = 1`).  `dim_` is fixed at fit time from `y`'s shape,
and every output position is the fit-time `mean_` unless overwritten by the
prediction of a bucket estimator trained at fit time. -/
theorem predict_shape_dim_and_init (b : Binner) (Xv : Mat) (n : Nat)
    (y : Nat → ℚ) (ys : YShape) (w : Option (Nat → ℚ))
    (assoc : Nat → Int) (mapping : List (BKey × Nat)) (leaves : List BKey)
    (estPred : List Nat → Row → ℚ) (XPv : Mat) (XPn : Nat) (assocP : Nat → Int)
    (hv : binnerValid b)
    (hmt : mappingTrain b Xv n = .ok (assoc, mapping, leaves))
    (htb : transformBins b mapping leaves XPv XPn = .ok assocP) :
    (∀ m k, 1 < m → predShapeOf XPn (dimOfY (YShape.two k m)) = NpShape.two XPn m) ∧
    (∀ k, predShapeOf XPn (dimOfY (YShape.one k)) = NpShape.one XPn) ∧
    (∀ k, predShapeOf XPn (dimOfY (YShape.two k 1)) = NpShape.one XPn) ∧
    (fitPLR b (.ndarray Xv n) y ys w initState).1.dim_ = some (dimOfY ys) ∧
    ∃ pred, predictPLR (fitPLR b (.ndarray Xv n) y ys w initState).1 estPred
        (.ndarray XPv XPn) = .ok pred ∧
      ∀ rq, pred rq = npAverage y n w ∨
        ∃ i e, i < mapping.length ∧ fitPiecewiseEstimator i n assoc = some e ∧
          pred rq = estPred e (XPv rq) := by
  obtain ⟨_, _, hex⟩ := mappingTrain_sound b Xv n assoc mapping leaves hv hmt
  refine ⟨fun m k hm => by simp [predShapeOf, dimOfY, hm],
    fun k => by simp [predShapeOf, dimOfY],
    fun k => by simp [predShapeOf, dimOfY], ?_, ?_⟩
  · rw [fitPLR_ok_char b Xv n y ys w initState assoc mapping leaves hmt]
  · rw [fitPLR_ok_char b Xv n y ys w initState assoc mapping leaves hmt]
    rw [predictPLR_fitted_eq _ estPred b mapping leaves (npAverage y n w)
      (dimOfY ys) XPv XPn assocP
      (fitted_ests_all_some b Xv n assoc mapping leaves hv hmt) htb]
    refine ⟨_, rfl, ?_⟩
    intro rq
    rw [predictGatherOrder, predictGatherOrder_pointwise]
    by_cases hc : rq < XPn ∧ 0 ≤ assocP rq ∧ (assocP rq).toNat ∈ List.range
        ((List.range mapping.length).map fun i => fitPiecewiseEstimator i n assoc).length
    · rw [if_pos hc]
      have hik : (assocP rq).toNat < mapping.length := by
        have := List.mem_range.1 hc.2.2
        simpa using this
      have hgd : ((List.range mapping.length).map
          fun i => fitPiecewiseEstimator i n assoc).getD (assocP rq).toNat none
            = fitPiecewiseEstimator (assocP rq).toNat n assoc :=
        getD_map_range mapping.length _ _ none hik
      obtain ⟨e, he⟩ := Option.ne_none_iff_exists'.1
        (fitPiecewiseEstimator_some_of_exists _ n assoc (hex _ hik))
      rw [hgd, he]
      right
      exact ⟨(assocP rq).toNat, e, hik, he, rfl⟩
    · rw [if_neg hc]
      left
      rfl

/-- C10 witness: shape, `dim_` and output characterization evaluated on the
concrete fitted binner. -/
theorem predict_shape_dim_and_init_witness :
    (∀ m k, 1 < m → predShapeOf 1 (dimOfY (YShape.two k m)) = NpShape.two 1 m) ∧
    (∀ k, predShapeOf 1 (dimOfY (YShape.one k)) = NpShape.one 1) ∧
    (∀ k, predShapeOf 1 (dimOfY (YShape.two k 1)) = NpShape.one 1) ∧
    (fitPLR exBinner (.ndarray exX 4) exY (.one 4) none initState).1.dim_
      = some (dimOfY (.one 4)) ∧
    ∃ pred, predictPLR (fitPLR exBinner (.ndarray exX 4) exY (.one 4) none initState).1
        exEstPred (.ndarray exXP 1) = .ok pred ∧
      ∀ rq, pred rq = npAverage exY 4 none ∨
        ∃ i e, i < exMT.mapping.length ∧
          fitPiecewiseEstimator i 4 exMT.association = some e ∧
          pred rq = exEstPred e (exXP rq) :=
  predict_shape_dim_and_init exBinner exX 4 exY (.one 4) none
    exMT.association exMT.mapping (binnerLeaves exBinner exX 4)
    exEstPred exXP 1 exAssocP exBinner_valid rfl rfl
